import Mathlib

/-!
Shallow embedding of `src/once_vec.rs` (`OnceVec<T>`), a growable sequence
container whose slots may each be written at most once.

Modelling conventions:
* `MaybeUninit<T>` storage is modelled as `Option T`, where `none` stands for
  uninitialized memory and `some v` for a fully constructed `T` in the slot.
  `UnsafeCell` is a transparent wrapper and is elided.
* A `Once` gate is modelled as a `Bool`: `true` means completed (set).
* `elements_written : AtomicUsize` is modelled as a `Nat`.  The Rust code uses
  wrapping `fetch_add`/`fetch_sub`; under the container invariant the counter
  equals the number of set gates, which is at most the vector length, so
  neither overflow at `2^64` nor underflow below `0` is reachable and plain
  `Nat` arithmetic coincides with the machine arithmetic on all states the
  theorems quantify over.
* Operations that can panic (out-of-bounds `Vec` indexing, `Option::unwrap` on
  `None`, `todo!()`) or hit undefined behaviour (`assume_init` on
  uninitialized storage) return `Option`; `none` marks the panic/UB outcome.
* `Vec` capacities are modelled as explicit `Nat` fields (`vec_cap`,
  `once_cap`).  Rust only guarantees lower bounds on capacities; the model
  picks the minimal values consistent with those guarantees
  (`shrink_to_fit` sets capacity to the length, `reserve` to
  `max cap (len + additional)`).
* `try_write`'s committing store `*element = val` is modelled as
  `vec.set index (some val)`.
-/

namespace OnceVecModel

/-- Model of `OnceVecError` (a unit-like struct). -/
structure OnceVecError where
deriving DecidableEq

/-- Model of `std::collections::TryReserveError` (opaque payload, never
constructed by this code since `try_reserve`/`try_reserve_exact` are
`todo!()` stubs). -/
structure TryReserveError where
deriving DecidableEq

/-- Model of `OnceVec<T>`: `vec: Vec<UnsafeCell<MaybeUninit<T>>>`,
`once: Vec<Once>`, `elements_written: AtomicUsize`, plus the two `Vec`
capacities made explicit. -/
structure OnceVec (T : Type) where
  vec : List (Option T)
  once : List Bool
  elements_written : Nat
  vec_cap : Nat
  once_cap : Nat
deriving DecidableEq

namespace OnceVec

variable {T : Type}

/-- `OnceVec::new()` -/
def new : OnceVec T :=
  { vec := [], once := [], elements_written := 0, vec_cap := 0, once_cap := 0 }

/-- `OnceVec::with_capacity(capacity)` -/
def with_capacity (capacity : Nat) : OnceVec T :=
  { vec := [], once := [], elements_written := 0,
    vec_cap := capacity, once_cap := capacity }

/-- `OnceVec::with_uninit_len(len)`: `len` uninitialized slots, all gates
unset. -/
def with_uninit_len (len : Nat) : OnceVec T :=
  { vec := List.replicate len none, once := List.replicate len false,
    elements_written := 0, vec_cap := len, once_cap := len }

/-- `OnceVec::capacity()` returns `self.vec.capacity()`. -/
def capacity (s : OnceVec T) : Nat := s.vec_cap

/-- `OnceVec::reserve(additional)`: `Vec::reserve` guarantees capacity at
least `len + additional`; the model takes the minimal such capacity. -/
def reserve (s : OnceVec T) (additional : Nat) : OnceVec T :=
  { s with vec_cap := max s.vec_cap (s.vec.length + additional),
           once_cap := max s.once_cap (s.once.length + additional) }

/-- `OnceVec::reserve_exact(additional)`: same capacity guarantee as
`reserve` in the model. -/
def reserve_exact (s : OnceVec T) (additional : Nat) : OnceVec T :=
  { s with vec_cap := max s.vec_cap (s.vec.length + additional),
           once_cap := max s.once_cap (s.once.length + additional) }

/-- `OnceVec::try_reserve(additional)`: the body is `todo!()`, which panics
unconditionally; `none` models the panic. -/
def try_reserve (_s : OnceVec T) (_additional : Nat) :
    Option (Except TryReserveError Unit × OnceVec T) :=
  none

/-- `OnceVec::try_reserve_exact(additional)`: the body is `todo!()`, which
panics unconditionally; `none` models the panic. -/
def try_reserve_exact (_s : OnceVec T) (_additional : Nat) :
    Option (Except TryReserveError Unit × OnceVec T) :=
  none

/-- `OnceVec::shrink_to_fit()`: shrinks both inner vectors; the model takes
the minimal resulting capacities (the lengths). -/
def shrink_to_fit (s : OnceVec T) : OnceVec T :=
  { s with vec_cap := s.vec.length, once_cap := s.once.length }

/-- `OnceVec::shrink_to(min_capacity)`: the body calls
`self.vec.shrink_to_fit()` and `self.once.shrink_to_fit()`, ignoring
`min_capacity`. -/
def shrink_to (s : OnceVec T) (_min_capacity : Nat) : OnceVec T :=
  { s with vec_cap := s.vec.length, once_cap := s.once.length }

/-- `elements_written_until(until)`: counts completed gates among the first
`until` entries of `self.once`. -/
def elements_written_until (s : OnceVec T) (u : Nat) : Nat :=
  ((s.once.take u).filter (fun b => b)).length

/-- `is_fully_written()`: compares the counter with `self.once.len()`. -/
def is_fully_written (s : OnceVec T) : Bool :=
  s.elements_written == s.once.length

/-- `OnceVec::truncate(len)` -/
def truncate (s : OnceVec T) (len : Nat) : OnceVec T :=
  if s.vec.length ≤ len then s
  else
    { s with vec := s.vec.take len, once := s.once.take len,
             elements_written := s.elements_written_until len }

/-- Reading a run of `MaybeUninit<T>` storage as `[T]`: sound only when every
slot is initialized; `none` models the undefined behaviour of reinterpreting
an uninitialized slot as a `T`. -/
def readAll : List (Option T) → Option (List T)
  | [] => some []
  | none :: _ => none
  | some v :: rest => (readAll rest).map (fun l => v :: l)

/-- `OnceVec::as_slice()`: fails with `OnceVecError` unless fully written;
on the success path the storage is reinterpreted as `&[T]`. -/
def as_slice (s : OnceVec T) : Except OnceVecError (Option (List T)) :=
  if ¬ s.is_fully_written then Except.error ⟨⟩
  else Except.ok (readAll s.vec)

/-- `OnceVec::as_mut_slice()`: same check, storage reinterpreted as
`&mut [T]`. -/
def as_mut_slice (s : OnceVec T) : Except OnceVecError (Option (List T)) :=
  if ¬ s.is_fully_written then Except.error ⟨⟩
  else Except.ok (readAll s.vec)

/-- `OnceVec::as_vec()`: same check; on success the storage is converted via
`Vec::from_raw_parts` into an owning `Vec<T>` without copying. -/
def as_vec (s : OnceVec T) : Except OnceVecError (Option (List T)) :=
  if ¬ s.is_fully_written then Except.error ⟨⟩
  else Except.ok (readAll s.vec)

/-- `OnceVec::insert(index, element)`: `Vec::insert` panics when
`index > len` (modelled by `none`); the freshly created gate is completed via
`call_once` before insertion, and the counter is incremented. -/
def insert (s : OnceVec T) (index : Nat) (element : T) : Option (OnceVec T) :=
  if index ≤ s.vec.length then
    if index ≤ s.once.length then
      some { vec := s.vec.insertIdx index (some element),
             once := s.once.insertIdx index true,
             elements_written := s.elements_written + 1,
             vec_cap := max s.vec_cap (s.vec.length + 1),
             once_cap := max s.once_cap (s.once.length + 1) }
    else none
  else none

/-- `OnceVec::insert_uninit(index, element)`: inserts the raw placeholder
with a fresh, unset gate; counter unchanged. -/
def insert_uninit (s : OnceVec T) (index : Nat) (element : Option T) :
    Option (OnceVec T) :=
  if index ≤ s.vec.length then
    if index ≤ s.once.length then
      some { vec := s.vec.insertIdx index element,
             once := s.once.insertIdx index false,
             elements_written := s.elements_written,
             vec_cap := max s.vec_cap (s.vec.length + 1),
             once_cap := max s.once_cap (s.once.length + 1) }
    else none
  else none

/-- `OnceVec::remove(index)`: `Vec::remove` panics when `index >= len`; when
the removed gate was completed the counter is decremented and the storage is
`assume_init`ed (undefined behaviour, modelled `none`, if the slot were
uninitialized).  Result: (returned `Option<T>`, new state). -/
def remove (s : OnceVec T) (index : Nat) :
    Option (Option T × OnceVec T) :=
  if h1 : index < s.vec.length then
    if h2 : index < s.once.length then
      let val := s.vec.get ⟨index, h1⟩
      let g := s.once.get ⟨index, h2⟩
      let rest : OnceVec T :=
        { s with vec := s.vec.eraseIdx index, once := s.once.eraseIdx index }
      if g then
        match val with
        | some v =>
          some (some v, { rest with elements_written := s.elements_written - 1 })
        | none => none
      else
        some (none, rest)
    else none
  else none

/-- `OnceVec::remove_uninit(index)`: same shifting behaviour, returns the raw
placeholder (`MaybeUninit<T>`, modelled `Option T`) regardless of gate state,
decrementing the counter only when the gate was completed. -/
def remove_uninit (s : OnceVec T) (index : Nat) :
    Option (Option T × OnceVec T) :=
  if h1 : index < s.vec.length then
    if h2 : index < s.once.length then
      let val := s.vec.get ⟨index, h1⟩
      let g := s.once.get ⟨index, h2⟩
      some (val,
        { s with vec := s.vec.eraseIdx index, once := s.once.eraseIdx index,
                 elements_written :=
                   if g then s.elements_written - 1 else s.elements_written })
    else none
  else none

/-- `OnceVec::push(value)`: appends an initialized slot with a completed
gate; counter incremented.  Never panics. -/
def push (s : OnceVec T) (value : T) : OnceVec T :=
  { vec := s.vec ++ [some value], once := s.once ++ [true],
    elements_written := s.elements_written + 1,
    vec_cap := max s.vec_cap (s.vec.length + 1),
    once_cap := max s.once_cap (s.once.length + 1) }

/-- `OnceVec::push_uninit(value)`: appends the raw placeholder with a fresh,
unset gate; counter unchanged. -/
def push_uninit (s : OnceVec T) (value : Option T) : OnceVec T :=
  { vec := s.vec ++ [value], once := s.once ++ [false],
    elements_written := s.elements_written,
    vec_cap := max s.vec_cap (s.vec.length + 1),
    once_cap := max s.once_cap (s.once.length + 1) }

/-- `OnceVec::pop()`: pops both inner vectors; when the popped gate was
completed the counter is decremented and the popped storage is unwrapped and
`assume_init`ed (`val.unwrap()` panics if `vec` was empty while `once` was
not; `assume_init` of uninitialized storage is undefined behaviour; both
modelled `none`).  Result: (returned `Option<T>`, new state). -/
def pop (s : OnceVec T) : Option (Option T × OnceVec T) :=
  let val := s.vec.getLast?
  let g := s.once.getLast?
  let rest : OnceVec T := { s with vec := s.vec.dropLast, once := s.once.dropLast }
  match g with
  | some g0 =>
    if g0 then
      match val with
      | some (some v) =>
        some (some v, { rest with elements_written := s.elements_written - 1 })
      | _ => none
    else
      some (none, rest)
  | none => some (none, rest)

/-- `OnceVec::pop_uninit()`: pops both inner vectors, decrements the counter
when the popped gate was completed, then returns
`Some(val.unwrap().into_inner())` — the `unwrap` panics (modelled `none`)
when `vec` was empty.  Result: (returned `Option<MaybeUninit<T>>`, new
state). -/
def pop_uninit (s : OnceVec T) : Option (Option (Option T) × OnceVec T) :=
  let val := s.vec.getLast?
  let g := s.once.getLast?
  let rest : OnceVec T :=
    { s with vec := s.vec.dropLast, once := s.once.dropLast,
             elements_written :=
               if g = some true then s.elements_written - 1
               else s.elements_written }
  match val with
  | some p => some (some p, rest)
  | none => none

/-- `OnceVec::try_write(index, val)`: `self.once[index]` panics when out of
bounds (`none`); if the gate is already completed the closure does not run and
`Err(OnceVecError)` is returned with the state untouched; otherwise the
closure stores `val` into `self.vec[index]` (panicking when `vec` is shorter
than `once`), completes the gate, and the counter is incremented.
Result: (`Result<(), OnceVecError>`, new state). -/
def try_write (s : OnceVec T) (index : Nat) (val : T) :
    Option (Except OnceVecError Unit × OnceVec T) :=
  match s.once[index]? with
  | none => none
  | some true => some (Except.error ⟨⟩, s)
  | some false =>
    if index < s.vec.length then
      some (Except.ok (),
        { s with vec := s.vec.set index (some val),
                 once := s.once.set index true,
                 elements_written := s.elements_written + 1 })
    else none

/-- One successful `try_write` per index of the list, in list order, starting
from `s`: models a caller performing `try_write(i, v i)` for each `i` drawn
from `order`, requiring every call to return `Ok(())`. -/
def write_seq (v : Nat → T) : OnceVec T → List Nat → Option (OnceVec T)
  | s, [] => some s
  | s, i :: rest =>
    match s.try_write i (v i) with
    | some (Except.ok _, s1) => write_seq v s1 rest
    | _ => none

/-- Number of set gates in a gate vector. -/
def countSet (l : List Bool) : Nat := (l.filter (fun b => b)).length

/-- The two accounting invariants of `OnceVec`: the storage vector and the
gate vector have equal length, and the counter equals the number of set
gates. -/
def Inv (s : OnceVec T) : Prop :=
  s.vec.length = s.once.length ∧ s.elements_written = countSet s.once

/-- Executable check that every slot with a set gate holds initialized
storage (the soundness invariant backing every `assume_init`). -/
def soundGates : List Bool → List (Option T) → Bool
  | [], _ => true
  | _ :: _, [] => true
  | g :: gs, v :: vs => (!g || v.isSome) && soundGates gs vs

/-- Soundness invariant: a set gate implies initialized storage at the same
index. -/
def Sound (s : OnceVec T) : Prop := soundGates s.once s.vec = true

instance : DecidablePred (Inv (T := T)) := fun s => by
  unfold Inv; infer_instance

instance : DecidablePred (Sound (T := T)) := fun s => by
  unfold Sound; infer_instance

/-! ### Helper lemmas about gate counting -/

theorem countSet_cons (b : Bool) (l : List Bool) :
    countSet (b :: l) = (if b then 1 else 0) + countSet l := by
  cases b <;> simp [countSet, List.filter_cons] <;> omega

theorem countSet_le_length (l : List Bool) : countSet l ≤ l.length := by
  induction l with
  | nil => simp [countSet]
  | cons b l ih => rw [countSet_cons]; cases b <;> simp <;> omega

theorem countSet_replicate_false (n : Nat) :
    countSet (List.replicate n false) = 0 := by
  induction n with
  | zero => rfl
  | succ n ih => rw [List.replicate_succ, countSet_cons]; simpa using ih

theorem all_true_of_countSet_eq_length {l : List Bool}
    (h : countSet l = l.length) : ∀ b ∈ l, b = true := by
  induction l with
  | nil => simp
  | cons b l ih =>
    rw [countSet_cons, List.length_cons] at h
    have hle := countSet_le_length l
    cases b with
    | false => exfalso; simp at h; omega
    | true =>
      simp at h
      intro c hc
      rcases List.mem_cons.mp hc with rfl | hc
      · rfl
      · exact ih (by omega) c hc

theorem countSet_set_true {l : List Bool} {i : Nat}
    (h : l[i]? = some false) : countSet (l.set i true) = countSet l + 1 := by
  induction l generalizing i with
  | nil => simp at h
  | cons b l ih =>
    cases i with
    | zero =>
      simp at h
      subst h
      simp [List.set, countSet_cons]
      omega
    | succ i =>
      simp at h
      simp [List.set, countSet_cons, ih h]
      omega

theorem countSet_insertIdx (b : Bool) {l : List Bool} {i : Nat}
    (h : i ≤ l.length) :
    countSet (l.insertIdx i b) = countSet l + (if b then 1 else 0) := by
  induction l generalizing i with
  | nil =>
    have hi0 : i = 0 := by simpa using h
    subst hi0
    rw [List.insertIdx_zero, countSet_cons]
    cases b <;> simp [countSet]
  | cons a l ih =>
    cases i with
    | zero =>
      rw [List.insertIdx_zero, countSet_cons]
      omega
    | succ i =>
      rw [List.insertIdx_succ_cons, countSet_cons, countSet_cons,
        ih (by simpa using h)]
      omega

theorem countSet_eraseIdx {l : List Bool} {i : Nat} (h : i < l.length) :
    countSet l = countSet (l.eraseIdx i) + (if l.get ⟨i, h⟩ then 1 else 0) := by
  induction l generalizing i with
  | nil => simp at h
  | cons b l ih =>
    cases i with
    | zero =>
      simp only [List.eraseIdx, countSet_cons, List.get]
      cases b <;> simp <;> omega
    | succ i =>
      have hi : i < l.length := by simpa using h
      simp only [List.eraseIdx, countSet_cons, List.get]
      rw [ih hi]
      omega

theorem countSet_append (l1 l2 : List Bool) :
    countSet (l1 ++ l2) = countSet l1 + countSet l2 := by
  simp [countSet, List.filter_append]

/-! ### Helper lemmas about soundness of storage reads -/

theorem soundGates_get {gs : List Bool} {vs : List (Option T)}
    (hS : soundGates gs vs = true) :
    ∀ i (hg : i < gs.length) (hv : i < vs.length),
      gs.get ⟨i, hg⟩ = true → (vs.get ⟨i, hv⟩).isSome = true := by
  induction gs generalizing vs with
  | nil => intro i hg; simp at hg
  | cons g gs ih =>
    intro i hg hv hgt
    cases vs with
    | nil => simp at hv
    | cons v vs =>
      simp only [soundGates, Bool.and_eq_true] at hS
      cases i with
      | zero =>
        simp only [List.get] at hgt ⊢
        subst hgt
        simpa using hS.1
      | succ i =>
        exact ih hS.2 i (by simpa using hg) (by simpa using hv) hgt

theorem readAll_of_all_isSome {vs : List (Option T)}
    (h : ∀ o ∈ vs, o.isSome = true) :
    ∃ l : List T, readAll vs = some l ∧ vs = l.map some := by
  induction vs with
  | nil => exact ⟨[], rfl, rfl⟩
  | cons v vs ih =>
    cases v with
    | none => simpa using h none (List.mem_cons_self _ _)
    | some a =>
      obtain ⟨l, hl, hvs⟩ := ih (fun o ho => h o (List.mem_cons_of_mem _ ho))
      exact ⟨a :: l, by simp [readAll, hl], by simp [hvs]⟩

theorem sound_all_isSome {s : OnceVec T} (hS : Sound s)
    (hlen : s.vec.length = s.once.length)
    (hall : ∀ b ∈ s.once, b = true) : ∀ o ∈ s.vec, o.isSome = true := by
  intro o ho
  obtain ⟨⟨i, hi⟩, rfl⟩ := List.mem_iff_get.mp ho
  have hg : i < s.once.length := hlen ▸ hi
  exact soundGates_get hS i hg hi (hall _ (List.get_mem _ _ _))

theorem readAll_map_some (l : List T) : readAll (l.map some) = some l := by
  induction l with
  | nil => rfl
  | cons a l ih => simp [readAll, ih]

theorem countSet_getLast? :
    ∀ {l : List Bool} {b : Bool}, l.getLast? = some b →
      countSet l = countSet l.dropLast + (if b then 1 else 0) := by
  intro l
  induction l with
  | nil => simp
  | cons a l ih =>
    intro b hb
    cases l with
    | nil =>
      simp at hb
      subst hb
      cases a <;> simp [countSet, List.filter]
    | cons c m =>
      rw [List.getLast?_cons_cons] at hb
      have hih := ih hb
      simp only [List.dropLast_cons₂, countSet_cons] at hih ⊢
      omega

theorem eraseIdx_last :
    ∀ (l : List α), l.eraseIdx (l.length - 1) = l.dropLast := by
  intro l
  induction l with
  | nil => rfl
  | cons a l ih =>
    cases l with
    | nil => rfl
    | cons c m =>
      simp only [List.length_cons, Nat.add_sub_cancel, List.eraseIdx,
        List.dropLast_cons₂]
      simpa using ih

/-- Fundamental lemma for sequential write sequences: writing a list of
distinct, unset, in-bounds indices succeeds at every step and produces the
pointwise-expected state. -/
theorem write_seq_go (v : Nat → T) :
    ∀ (l : List Nat) (s : OnceVec T), l.Nodup →
    (∀ j ∈ l, s.once[j]? = some false) →
    s.vec.length = s.once.length →
    ∃ s1, write_seq v s l = some s1 ∧
      s1.vec.length = s.vec.length ∧ s1.once.length = s.once.length ∧
      s1.elements_written = s.elements_written + l.length ∧
      (∀ j ∈ l, s1.once[j]? = some true ∧ s1.vec[j]? = some (some (v j))) ∧
      (∀ j, j ∉ l → s1.once[j]? = s.once[j]? ∧ s1.vec[j]? = s.vec[j]?) := by
  intro l
  induction l with
  | nil =>
    intro s _ _ _
    exact ⟨s, rfl, rfl, rfl, rfl, by simp, fun j _ => ⟨rfl, rfl⟩⟩
  | cons i rest ih =>
    intro s hnd hunset hlen
    have hi_once : s.once[i]? = some false :=
      hunset i (List.mem_cons_self _ _)
    have hi_lt_once : i < s.once.length := by
      by_contra hge
      rw [List.getElem?_eq_none (by omega)] at hi_once
      exact Option.noConfusion hi_once
    have hi_lt_vec : i < s.vec.length := hlen ▸ hi_lt_once
    have hstep : s.try_write i (v i) = some (Except.ok (),
        { s with vec := s.vec.set i (some (v i)),
                 once := s.once.set i true,
                 elements_written := s.elements_written + 1 }) := by
      rw [try_write, hi_once]
      simp [hi_lt_vec]
    set s1 : OnceVec T :=
      { s with vec := s.vec.set i (some (v i)),
               once := s.once.set i true,
               elements_written := s.elements_written + 1 } with hs1
    have hnd_rest : rest.Nodup := (List.nodup_cons.mp hnd).2
    have hi_notin : i ∉ rest := (List.nodup_cons.mp hnd).1
    have hunset1 : ∀ j ∈ rest, s1.once[j]? = some false := by
      intro j hj
      have hji : i ≠ j := fun h => hi_notin (h ▸ hj)
      rw [hs1]
      simpa [List.getElem?_set_ne hji] using hunset j (List.mem_cons_of_mem _ hj)
    have hlen1 : s1.vec.length = s1.once.length := by
      simp [hs1, hlen]
    obtain ⟨s2, hrun, hv2, ho2, hew2, hmem2, hnot2⟩ := ih s1 hnd_rest hunset1 hlen1
    refine ⟨s2, ?_, ?_, ?_, ?_, ?_, ?_⟩
    · rw [write_seq, hstep]
      exact hrun
    · rw [hv2]; simp [hs1]
    · rw [ho2]; simp [hs1]
    · rw [hew2]; simp [hs1, List.length_cons]; omega
    · intro j hj
      rcases List.mem_cons.mp hj with rfl | hj
      · have h1 := hnot2 j hi_notin
        constructor
        · rw [h1.1, hs1]
          simp [List.getElem?_set_self hi_lt_once]
        · rw [h1.2, hs1]
          simp [List.getElem?_set_self hi_lt_vec]
      · exact hmem2 j hj
    · intro j hj
      have hjr : j ∉ rest := fun h => hj (List.mem_cons_of_mem _ h)
      have hji : i ≠ j := fun h => hj (h ▸ List.mem_cons_self _ _)
      have h1 := hnot2 j hjr
      constructor
      · rw [h1.1, hs1]; simp [List.getElem?_set_ne hji]
      · rw [h1.2, hs1]; simp [List.getElem?_set_ne hji]

/-! ### Claim theorems -/

/-- C9: for every container and every `additional`, `try_reserve` and
`try_reserve_exact` are `todo!()` stubs that panic unconditionally (modelled
as `none`) and never return any `Result` value. -/
theorem try_reserve_stub (T : Type) (s : OnceVec T) (additional : Nat) :
    s.try_reserve additional = none ∧ s.try_reserve_exact additional = none :=
  ⟨rfl, rfl⟩

/-- C10: `shrink_to(min_capacity)` ignores its argument and performs exactly
the same state transition as `shrink_to_fit()`; both leave the length, every
slot, every gate, and the counter unchanged, and the capacity may drop below
`min_capacity`. -/
theorem shrink_to_spec (T : Type) (s : OnceVec T) (m : Nat) :
    s.shrink_to m = s.shrink_to_fit ∧
    s.shrink_to_fit.vec = s.vec ∧ s.shrink_to_fit.once = s.once ∧
    s.shrink_to_fit.elements_written = s.elements_written ∧
    (s.shrink_to m).vec = s.vec ∧ (s.shrink_to m).once = s.once ∧
    (s.shrink_to m).elements_written = s.elements_written ∧
    (s.vec.length < m → (s.shrink_to m).capacity < m) :=
  ⟨rfl, rfl, rfl, rfl, rfl, rfl, rfl, fun h => h⟩

/-- Witness for C10: shrinking a capacity-10 empty container with
`shrink_to 5` drops the capacity to 0, below the requested minimum. -/
theorem shrink_to_spec_witness :
    (with_capacity 10 : OnceVec Nat).vec.length < 5 ∧
    ((with_capacity 10 : OnceVec Nat).shrink_to 5).capacity < 5 :=
  ⟨by decide, (shrink_to_spec Nat (with_capacity 10) 5).2.2.2.2.2.2.2 (by decide)⟩

/-- C5: `truncate k` keeps exactly the first `k` slots (contents and gates
unchanged, container unchanged when `k ≥ len`), and afterwards the stored
counter equals the number of set gates strictly before `k`; re-deriving it by
scanning gates `0..k` of the truncated container yields the reported value. -/
theorem truncate_spec (T : Type) (s : OnceVec T) (k : Nat) (hI : Inv s) :
    (s.truncate k).vec = s.vec.take k ∧
    (s.truncate k).once = s.once.take k ∧
    (s.vec.length ≤ k → s.truncate k = s) ∧
    (s.truncate k).elements_written = countSet (s.once.take k) ∧
    (s.truncate k).elements_written = (s.truncate k).elements_written_until k := by
  obtain ⟨hlen, hcnt⟩ := hI
  by_cases h : s.vec.length ≤ k
  · have honce : s.once.take k = s.once := List.take_of_length_le (by omega)
    have hvec : s.vec.take k = s.vec := List.take_of_length_le h
    simp only [truncate, if_pos h]
    refine ⟨hvec.symm, honce.symm, fun _ => trivial, ?_, ?_⟩
    · rw [honce]; exact hcnt
    · show s.elements_written = ((s.once.take k).filter (fun b => b)).length
      rw [honce]; exact hcnt
  · simp only [truncate, if_neg h]
    refine ⟨trivial, trivial, fun hk => absurd hk h, rfl, ?_⟩
    show elements_written_until s k =
      (((s.once.take k).take k).filter (fun b => b)).length
    rw [List.take_of_length_le (l := s.once.take k)
      (by rw [List.length_take]; omega)]
    rfl

/-- Witness for C5 at a concrete container with a mixed set/unset dropped
region. -/
theorem truncate_spec_witness :
    Inv (⟨[some 1, none, some 3], [true, false, true], 2, 3, 3⟩ : OnceVec Nat) ∧
    ((⟨[some 1, none, some 3], [true, false, true], 2, 3, 3⟩ :
        OnceVec Nat).truncate 2).elements_written = 1 := by
  refine ⟨by decide, ?_⟩
  have h := truncate_spec Nat
    (⟨[some 1, none, some 3], [true, false, true], 2, 3, 3⟩ : OnceVec Nat) 2
    (by decide)
  rw [h.2.2.2.1]
  decide

/-- C1: each of `as_slice`, `as_mut_slice`, `as_vec` fails with
`OnceVecError` if and only if `written_count < len`; on success each returns
all `len` values in index order (for `as_vec`, as an owned sequence); on
failure the result does not depend on the storage, so no unset slot's
storage is read. -/
theorem views_spec (T : Type) (s : OnceVec T) (hI : Inv s) (hS : Sound s) :
    ((s.as_slice = Except.error ⟨⟩ ∧ s.as_mut_slice = Except.error ⟨⟩ ∧
        s.as_vec = Except.error ⟨⟩) ↔ s.elements_written < s.vec.length) ∧
    (s.vec.length ≤ s.elements_written →
      ∃ l : List T, l.length = s.vec.length ∧ s.vec = l.map some ∧
        s.as_slice = Except.ok (some l) ∧
        s.as_mut_slice = Except.ok (some l) ∧
        s.as_vec = Except.ok (some l)) ∧
    (∀ storage : List (Option T), s.is_fully_written = false →
      as_slice { s with vec := storage } = Except.error ⟨⟩ ∧
      as_mut_slice { s with vec := storage } = Except.error ⟨⟩ ∧
      as_vec { s with vec := storage } = Except.error ⟨⟩) := by
  obtain ⟨hlen, hcnt⟩ := hI
  have hle : s.elements_written ≤ s.once.length := by
    rw [hcnt]; exact countSet_le_length _
  refine ⟨?_, ?_, ?_⟩
  · by_cases h : s.elements_written = s.once.length
    · have hall : ∀ b ∈ s.once, b = true :=
        all_true_of_countSet_eq_length (by omega)
      obtain ⟨l, hread, hmap⟩ :=
        readAll_of_all_isSome (sound_all_isSome hS hlen hall)
      have hok : s.as_slice = Except.ok (readAll s.vec) := by
        simp [as_slice, is_fully_written, h]
      constructor
      · intro ⟨he, _, _⟩
        rw [hok] at he
        exact absurd he (by simp)
      · omega
    · have he : s.as_slice = Except.error ⟨⟩ := by
        simp [as_slice, is_fully_written, h]
      have he2 : s.as_mut_slice = Except.error ⟨⟩ := by
        simp [as_mut_slice, is_fully_written, h]
      have he3 : s.as_vec = Except.error ⟨⟩ := by
        simp [as_vec, is_fully_written, h]
      exact ⟨fun _ => by omega, fun _ => ⟨he, he2, he3⟩⟩
  · intro hfull
    have h : s.elements_written = s.once.length := by omega
    have hall : ∀ b ∈ s.once, b = true :=
      all_true_of_countSet_eq_length (by omega)
    obtain ⟨l, hread, hmap⟩ :=
      readAll_of_all_isSome (sound_all_isSome hS hlen hall)
    have hlen2 : l.length = s.vec.length := by rw [hmap, List.length_map]
    refine ⟨l, hlen2, hmap, ?_, ?_, ?_⟩ <;>
      simp [as_slice, as_mut_slice, as_vec, is_fully_written, h, hread]
  · intro storage hnf
    have hnf2 : (s.elements_written == s.once.length) = false := hnf
    refine ⟨?_, ?_, ?_⟩ <;>
      simp [as_slice, as_mut_slice, as_vec, is_fully_written, hnf2]

/-- Witness for C1: a pre-sized container with no writes yet fails all three
view operations. -/
theorem views_spec_witness :
    Inv (with_uninit_len (T := Nat) 1) ∧ Sound (with_uninit_len (T := Nat) 1) ∧
    ((with_uninit_len (T := Nat) 1).as_slice = Except.error ⟨⟩ ∧
      (with_uninit_len (T := Nat) 1).as_mut_slice = Except.error ⟨⟩ ∧
      (with_uninit_len (T := Nat) 1).as_vec = Except.error ⟨⟩) :=
  ⟨by decide, by decide,
    (views_spec Nat (with_uninit_len 1) (by decide) (by decide)).1.mpr
      (by decide)⟩

/-- C2: `try_write` on an in-bounds set gate fails with `AlreadyWritten`,
stores nothing and leaves the whole state (length, gates, counter, committed
value) unchanged; on an in-bounds unset gate it stores the value, flips
exactly that gate, increments the counter by one, and returns `Ok(())`. -/
theorem try_write_spec (T : Type) (s : OnceVec T) (i : Nat) (v1 v2 : T)
    (hI : Inv s) :
    (s.once[i]? = some true →
      s.try_write i v2 = some (Except.error ⟨⟩, s)) ∧
    (s.once[i]? = some false →
      ∃ s1, s.try_write i v2 = some (Except.ok (), s1) ∧
        s1.vec[i]? = some (some v2) ∧ s1.once[i]? = some true ∧
        (∀ j, j ≠ i → s1.vec[j]? = s.vec[j]? ∧ s1.once[j]? = s.once[j]?) ∧
        s1.vec.length = s.vec.length ∧ s1.once.length = s.once.length ∧
        s1.elements_written = s.elements_written + 1) ∧
    (∀ s1 u, s.try_write i v1 = some (Except.ok u, s1) →
      s1.try_write i v2 = some (Except.error ⟨⟩, s1) ∧
      s1.vec[i]? = some (some v1)) := by
  obtain ⟨hlen, -⟩ := hI
  have herr : ∀ (t : OnceVec T) (w : T), t.once[i]? = some true →
      t.try_write i w = some (Except.error ⟨⟩, t) := by
    intro t w hg
    simp [try_write, hg]
  refine ⟨herr s v2, ?_, ?_⟩
  · intro hg
    have hg' : i < s.once.length := by
      by_contra hge
      rw [List.getElem?_eq_none (by omega)] at hg
      cases hg
    have hv' : i < s.vec.length := hlen ▸ hg'
    refine ⟨⟨s.vec.set i (some v2), s.once.set i true,
      s.elements_written + 1, s.vec_cap, s.once_cap⟩, ?_, ?_, ?_, ?_, ?_, ?_, ?_⟩
    · simp [try_write, hg, hv']
    · simp [List.getElem?_set_self hv']
    · simp [List.getElem?_set_self hg']
    · intro j hj
      exact ⟨List.getElem?_set_ne (fun h => hj h.symm),
        List.getElem?_set_ne (fun h => hj h.symm)⟩
    · simp
    · simp
    · rfl
  · intro s1 u hok
    cases hgi : s.once[i]? with
    | none => simp [try_write, hgi] at hok
    | some g =>
      cases g with
      | true => simp [try_write, hgi] at hok
      | false =>
        have hg' : i < s.once.length := by
          by_contra hge
          rw [List.getElem?_eq_none (by omega)] at hgi
          cases hgi
        have hv' : i < s.vec.length := hlen ▸ hg'
        simp [try_write, hgi, hv'] at hok
        obtain rfl := hok.symm
        constructor
        · exact herr _ v2 (by simp [List.getElem?_set_self hg'])
        · simp [List.getElem?_set_self hv']

/-- Witness for C2: writing index 0 of a fresh length-1 container succeeds
and sets the counter to 1. -/
theorem try_write_spec_witness :
    Inv (with_uninit_len (T := Nat) 1) ∧
    (with_uninit_len (T := Nat) 1).once[0]? = some false ∧
    ∃ s1, (with_uninit_len (T := Nat) 1).try_write 0 7 =
        some (Except.ok (), s1) ∧ s1.elements_written = 1 := by
  refine ⟨by decide, by decide, ?_⟩
  obtain ⟨s1, h1, -, -, -, -, -, h7⟩ :=
    (try_write_spec Nat (with_uninit_len 1) 0 3 7 (by decide)).2.1 (by decide)
  exact ⟨s1, h1, by rw [h7]; decide⟩

/-- C8: `try_write` with an out-of-bounds index panics (modelled `none`)
rather than returning a recoverable error; with an in-bounds index it never
panics; and an error value is returned only when the targeted gate was
already set, in which case the state is unchanged. -/
theorem try_write_bounds (T : Type) (s : OnceVec T) (i : Nat) (v : T)
    (hI : Inv s) :
    (s.vec.length ≤ i → s.try_write i v = none) ∧
    (i < s.vec.length → ∃ r s1, s.try_write i v = some (r, s1)) ∧
    (∀ e s1, s.try_write i v = some (Except.error e, s1) →
      s.once[i]? = some true ∧ s1 = s) := by
  obtain ⟨hlen, -⟩ := hI
  refine ⟨?_, ?_, ?_⟩
  · intro hge
    have : s.once[i]? = none := List.getElem?_eq_none (by omega)
    simp [try_write, this]
  · intro hlt
    have hg' : i < s.once.length := hlen ▸ hlt
    cases hgi : s.once[i]? with
    | none =>
      rw [List.getElem?_eq_none_iff] at hgi
      omega
    | some g =>
      cases g with
      | true => exact ⟨Except.error ⟨⟩, s, by simp [try_write, hgi]⟩
      | false =>
        exact ⟨Except.ok (), ⟨s.vec.set i (some v), s.once.set i true,
          s.elements_written + 1, s.vec_cap, s.once_cap⟩,
          by simp [try_write, hgi, hlt]⟩
  · intro e s1 hok
    cases hgi : s.once[i]? with
    | none => simp [try_write, hgi] at hok
    | some g =>
      cases g with
      | true =>
        simp [try_write, hgi] at hok
        exact ⟨rfl, hok.symm⟩
      | false =>
        by_cases hlt : i < s.vec.length <;> simp [try_write, hgi, hlt] at hok

/-- Witness for C8: index 5 is out of bounds for a length-1 container, so
`try_write` panics. -/
theorem try_write_bounds_witness :
    Inv (with_uninit_len (T := Nat) 1) ∧
    (with_uninit_len (T := Nat) 1).vec.length ≤ 5 ∧
    (with_uninit_len (T := Nat) 1).try_write 5 9 = none :=
  ⟨by decide, by decide,
    (try_write_bounds Nat (with_uninit_len 1) 5 9 (by decide)).1 (by decide)⟩

/-- C6: `remove(i)` on a set slot decrements the counter by exactly one and
returns the previously stored value, shifting later slots down; on an unset
slot it leaves the counter unchanged and returns `None`, discarding the
placeholder; `remove_uninit(i)` returns the raw placeholder in both cases and
decrements the counter only when the slot was set. -/
theorem remove_spec (T : Type) (s : OnceVec T) (i : Nat) (hI : Inv s)
    (hS : Sound s) (hi : i < s.vec.length) :
    (s.once[i]? = some true →
      ∃ v s1, s.vec[i]? = some (some v) ∧ s.remove i = some (some v, s1) ∧
        s1.elements_written + 1 = s.elements_written ∧
        s1.vec = s.vec.eraseIdx i ∧ s1.once = s.once.eraseIdx i) ∧
    (s.once[i]? = some false →
      ∃ s1, s.remove i = some (none, s1) ∧
        s1.elements_written = s.elements_written ∧
        s1.vec = s.vec.eraseIdx i ∧ s1.once = s.once.eraseIdx i) ∧
    (∃ p s2, s.remove_uninit i = some (p, s2) ∧ s.vec[i]? = some p ∧
      s2.vec = s.vec.eraseIdx i ∧ s2.once = s.once.eraseIdx i ∧
      (s.once[i]? = some true →
        s2.elements_written + 1 = s.elements_written) ∧
      (s.once[i]? = some false →
        s2.elements_written = s.elements_written)) := by
  obtain ⟨hlen, hcnt⟩ := hI
  have hio : i < s.once.length := hlen ▸ hi
  have hcs := countSet_eraseIdx (l := s.once) hio
  simp only [List.get_eq_getElem] at hcs
  refine ⟨?_, ?_, ?_⟩
  · intro hg
    have hgt : s.once[i] = true := by
      rw [List.getElem?_eq_getElem hio] at hg
      simpa using hg
    have hew1 : 1 ≤ s.elements_written := by
      simp only [hgt, if_true] at hcs
      omega
    have hvs : (s.vec[i]).isSome = true := soundGates_get hS i hio hi hgt
    obtain ⟨v, hv⟩ := Option.isSome_iff_exists.mp hvs
    refine ⟨v, ⟨s.vec.eraseIdx i, s.once.eraseIdx i, s.elements_written - 1,
      s.vec_cap, s.once_cap⟩, ?_, ?_,
      by show s.elements_written - 1 + 1 = s.elements_written; omega, rfl, rfl⟩
    · rw [List.getElem?_eq_getElem hi]
      simpa using hv
    · simp [remove, hi, hio, hgt, hv]
  · intro hg
    have hgf : s.once[i] = false := by
      rw [List.getElem?_eq_getElem hio] at hg
      simpa using hg
    refine ⟨⟨s.vec.eraseIdx i, s.once.eraseIdx i, s.elements_written,
      s.vec_cap, s.once_cap⟩, ?_, rfl, rfl, rfl⟩
    simp [remove, hi, hio, hgf]
  · refine ⟨s.vec[i], ⟨s.vec.eraseIdx i, s.once.eraseIdx i,
      if s.once[i] then s.elements_written - 1
      else s.elements_written, s.vec_cap, s.once_cap⟩, ?_, ?_, rfl, rfl,
      ?_, ?_⟩
    · simp [remove_uninit, hi, hio]
    · rw [List.getElem?_eq_getElem hi]
    · intro hg
      have hgt : s.once[i] = true := by
        rw [List.getElem?_eq_getElem hio] at hg
        simpa using hg
      have hew1 : 1 ≤ s.elements_written := by
        simp only [hgt, if_true] at hcs
        omega
      show (if s.once[i] = true then s.elements_written - 1
        else s.elements_written) + 1 = s.elements_written
      simp only [hgt, if_true]
      omega
    · intro hg
      have hgf : s.once[i] = false := by
        rw [List.getElem?_eq_getElem hio] at hg
        simpa using hg
      show (if s.once[i] = true then s.elements_written - 1
        else s.elements_written) = s.elements_written
      simp only [hgf]
      simp

/-- Witness for C6: removing the set slot 0 of a two-slot container returns
its value and drops the counter from 1 to 0. -/
theorem remove_spec_witness :
    Inv (⟨[some 8, none], [true, false], 1, 2, 2⟩ : OnceVec Nat) ∧
    Sound (⟨[some 8, none], [true, false], 1, 2, 2⟩ : OnceVec Nat) ∧
    0 < (⟨[some 8, none], [true, false], 1, 2, 2⟩ : OnceVec Nat).vec.length ∧
    ∃ v s1, (⟨[some 8, none], [true, false], 1, 2, 2⟩ :
        OnceVec Nat).remove 0 = some (some v, s1) ∧
      s1.elements_written + 1 = 1 := by
  refine ⟨by decide, by decide, by decide, ?_⟩
  obtain ⟨v, s1, -, hrm, hew, -, -⟩ :=
    (remove_spec Nat (⟨[some 8, none], [true, false], 1, 2, 2⟩ : OnceVec Nat)
      0 (by decide) (by decide) (by decide)).1 (by decide)
  exact ⟨v, s1, hrm, hew⟩

/-! ### Push/pop versus insert/remove at the end of the sequence -/

theorem insert_at_end {s : OnceVec T} (hI : Inv s) (v : T) :
    s.insert s.vec.length v = some (s.push v) := by
  obtain ⟨hlen, -⟩ := hI
  simp only [insert, push]
  rw [if_pos (Nat.le_refl _), if_pos (by omega : s.vec.length ≤ s.once.length)]
  rw [List.insertIdx_length_self, hlen, List.insertIdx_length_self]

theorem insert_uninit_at_end {s : OnceVec T} (hI : Inv s) (p : Option T) :
    s.insert_uninit s.vec.length p = some (s.push_uninit p) := by
  obtain ⟨hlen, -⟩ := hI
  simp only [insert_uninit, push_uninit]
  rw [if_pos (Nat.le_refl _), if_pos (by omega : s.vec.length ≤ s.once.length)]
  rw [List.insertIdx_length_self, hlen, List.insertIdx_length_self]

theorem pop_eq_remove_last {s : OnceVec T} (hI : Inv s) (hne : s.vec ≠ []) :
    s.pop = s.remove (s.vec.length - 1) := by
  obtain ⟨hlen, -⟩ := hI
  have hvlen : 0 < s.vec.length := List.length_pos.mpr hne
  have hi : s.vec.length - 1 < s.vec.length := by omega
  have hio : s.vec.length - 1 < s.once.length := by omega
  have hvlast : s.vec.getLast? = some s.vec[s.vec.length - 1] := by
    rw [List.getLast?_eq_getElem?, List.getElem?_eq_getElem hi]
  have holast : s.once.getLast? = some s.once[s.vec.length - 1] := by
    rw [List.getLast?_eq_getElem?,
      show s.once.length - 1 = s.vec.length - 1 by omega,
      List.getElem?_eq_getElem hio]
  have he1 : s.vec.eraseIdx (s.vec.length - 1) = s.vec.dropLast :=
    eraseIdx_last s.vec
  have he2 : s.once.eraseIdx (s.vec.length - 1) = s.once.dropLast := by
    rw [show s.vec.length - 1 = s.once.length - 1 by omega]
    exact eraseIdx_last s.once
  cases hgb : s.once[s.vec.length - 1] with
  | false =>
    simp [pop, remove, hvlast, holast, hi, hio, hgb, he1, he2]
  | true =>
    cases hvb : s.vec[s.vec.length - 1] with
    | none => simp [pop, remove, hvlast, holast, hi, hio, hgb, hvb]
    | some v => simp [pop, remove, hvlast, holast, hi, hio, hgb, hvb, he1, he2]

theorem pop_uninit_eq_remove_uninit_last {s : OnceVec T} (hI : Inv s)
    (hne : s.vec ≠ []) :
    s.pop_uninit =
      (s.remove_uninit (s.vec.length - 1)).map (fun pr => (some pr.1, pr.2)) := by
  obtain ⟨hlen, -⟩ := hI
  have hvlen : 0 < s.vec.length := List.length_pos.mpr hne
  have hi : s.vec.length - 1 < s.vec.length := by omega
  have hio : s.vec.length - 1 < s.once.length := by omega
  have hvlast : s.vec.getLast? = some s.vec[s.vec.length - 1] := by
    rw [List.getLast?_eq_getElem?, List.getElem?_eq_getElem hi]
  have holast : s.once.getLast? = some s.once[s.vec.length - 1] := by
    rw [List.getLast?_eq_getElem?,
      show s.once.length - 1 = s.vec.length - 1 by omega,
      List.getElem?_eq_getElem hio]
  have he1 : s.vec.eraseIdx (s.vec.length - 1) = s.vec.dropLast :=
    eraseIdx_last s.vec
  have he2 : s.once.eraseIdx (s.vec.length - 1) = s.once.dropLast := by
    rw [show s.vec.length - 1 = s.once.length - 1 by omega]
    exact eraseIdx_last s.once
  cases hgb : s.once[s.vec.length - 1] with
  | false =>
    simp [pop_uninit, remove_uninit, hvlast, holast, hi, hio, hgb, he1, he2]
  | true =>
    simp [pop_uninit, remove_uninit, hvlast, holast, hi, hio, hgb, he1, he2]

/-! ### Preservation of the accounting invariants by each operation -/

theorem inv_new : Inv (new : OnceVec T) := ⟨rfl, rfl⟩

theorem inv_with_capacity (c : Nat) : Inv (with_capacity (T := T) c) :=
  ⟨rfl, rfl⟩

theorem inv_with_uninit_len (n : Nat) : Inv (with_uninit_len (T := T) n) :=
  ⟨by simp [with_uninit_len],
   by simp [with_uninit_len, countSet_replicate_false]⟩

theorem inv_try_write {s : OnceVec T} (hI : Inv s) (i : Nat) (v : T) :
    ∀ r s1, s.try_write i v = some (r, s1) → Inv s1 := by
  obtain ⟨hlen, hcnt⟩ := hI
  intro r s1 h
  cases hgi : s.once[i]? with
  | none => simp [try_write, hgi] at h
  | some g =>
    cases g with
    | true =>
      simp [try_write, hgi] at h
      obtain ⟨-, rfl⟩ := h
      exact ⟨hlen, hcnt⟩
    | false =>
      by_cases hv : i < s.vec.length
      · simp [try_write, hgi, hv] at h
        obtain ⟨-, rfl⟩ := h
        refine ⟨by simp [hlen], ?_⟩
        show s.elements_written + 1 = countSet (s.once.set i true)
        rw [countSet_set_true hgi, hcnt]
      · simp [try_write, hgi, hv] at h

theorem inv_insert {s : OnceVec T} (hI : Inv s) (i : Nat) (v : T) :
    ∀ s1, s.insert i v = some s1 → Inv s1 := by
  obtain ⟨hlen, hcnt⟩ := hI
  intro s1 h
  by_cases h1 : i ≤ s.vec.length
  · by_cases h2 : i ≤ s.once.length
    · simp [insert, h1, h2] at h
      obtain rfl := h.symm
      refine ⟨?_, ?_⟩
      · simp [List.length_insertIdx _ _ h1, List.length_insertIdx _ _ h2, hlen]
      · show s.elements_written + 1 = countSet (s.once.insertIdx i true)
        rw [countSet_insertIdx true h2, hcnt]
        simp
    · simp [insert, h1, h2] at h
  · simp [insert, h1] at h

theorem inv_insert_uninit {s : OnceVec T} (hI : Inv s) (i : Nat)
    (p : Option T) : ∀ s1, s.insert_uninit i p = some s1 → Inv s1 := by
  obtain ⟨hlen, hcnt⟩ := hI
  intro s1 h
  by_cases h1 : i ≤ s.vec.length
  · by_cases h2 : i ≤ s.once.length
    · simp [insert_uninit, h1, h2] at h
      obtain rfl := h.symm
      refine ⟨?_, ?_⟩
      · simp [List.length_insertIdx _ _ h1, List.length_insertIdx _ _ h2, hlen]
      · show s.elements_written = countSet (s.once.insertIdx i false)
        rw [countSet_insertIdx false h2, hcnt]
        simp
    · simp [insert_uninit, h1, h2] at h
  · simp [insert_uninit, h1] at h

theorem inv_remove {s : OnceVec T} (hI : Inv s) (i : Nat) :
    ∀ r s1, s.remove i = some (r, s1) → Inv s1 := by
  obtain ⟨hlen, hcnt⟩ := hI
  intro r s1 h
  by_cases h1 : i < s.vec.length
  · have h2 : i < s.once.length := hlen ▸ h1
    have hcs := countSet_eraseIdx (l := s.once) h2
    simp only [List.get_eq_getElem] at hcs
    cases hgb : s.once[i] with
    | true =>
      cases hvb : s.vec[i] with
      | none => simp [remove, h1, h2, hgb, hvb] at h
      | some v =>
        simp [remove, h1, h2, hgb, hvb] at h
        obtain ⟨-, rfl⟩ := h
        refine ⟨by simp [List.length_eraseIdx_of_lt h1,
          List.length_eraseIdx_of_lt h2, hlen], ?_⟩
        simp only [hgb, if_true] at hcs
        show s.elements_written - 1 = countSet (s.once.eraseIdx i)
        omega
    | false =>
      simp [remove, h1, h2, hgb] at h
      obtain ⟨-, rfl⟩ := h
      refine ⟨by simp [List.length_eraseIdx_of_lt h1,
        List.length_eraseIdx_of_lt h2, hlen], ?_⟩
      simp only [hgb] at hcs
      simp at hcs
      show s.elements_written = countSet (s.once.eraseIdx i)
      omega
  · simp [remove, h1] at h

theorem inv_remove_uninit {s : OnceVec T} (hI : Inv s) (i : Nat) :
    ∀ r s1, s.remove_uninit i = some (r, s1) → Inv s1 := by
  obtain ⟨hlen, hcnt⟩ := hI
  intro r s1 h
  by_cases h1 : i < s.vec.length
  · have h2 : i < s.once.length := hlen ▸ h1
    have hcs := countSet_eraseIdx (l := s.once) h2
    simp only [List.get_eq_getElem] at hcs
    simp [remove_uninit, h1, h2] at h
    obtain ⟨-, rfl⟩ := h
    refine ⟨by simp [List.length_eraseIdx_of_lt h1,
      List.length_eraseIdx_of_lt h2, hlen], ?_⟩
    show (if s.once[i] = true then s.elements_written - 1
      else s.elements_written) = countSet (s.once.eraseIdx i)
    by_cases hgb : s.once[i] = true
    · simp only [hgb, if_true] at hcs ⊢
      omega
    · simp only [if_neg hgb] at hcs ⊢
      omega
  · simp [remove_uninit, h1] at h

theorem inv_push {s : OnceVec T} (hI : Inv s) (v : T) : Inv (s.push v) := by
  obtain ⟨hlen, hcnt⟩ := hI
  refine ⟨by simp [push, hlen], ?_⟩
  show s.elements_written + 1 = countSet (s.once ++ [true])
  rw [countSet_append, hcnt]
  simp [countSet]

theorem inv_push_uninit {s : OnceVec T} (hI : Inv s) (p : Option T) :
    Inv (s.push_uninit p) := by
  obtain ⟨hlen, hcnt⟩ := hI
  refine ⟨by simp [push_uninit, hlen], ?_⟩
  show s.elements_written = countSet (s.once ++ [false])
  rw [countSet_append, hcnt]
  simp [countSet]

theorem inv_pop {s : OnceVec T} (hI : Inv s) :
    ∀ r s1, s.pop = some (r, s1) → Inv s1 := by
  obtain ⟨hlen, hcnt⟩ := hI
  intro r s1 h
  by_cases hne : s.vec = []
  · have honce : s.once = [] := by
      rw [hne] at hlen
      exact (List.length_eq_zero.mp hlen.symm)
    have hgl : s.once.getLast? = none := by rw [honce]; rfl
    simp [pop, hgl] at h
    obtain ⟨-, rfl⟩ := h
    refine ⟨by simp [hne, honce], ?_⟩
    show s.elements_written = countSet s.once.dropLast
    rw [honce] at hcnt ⊢
    simpa using hcnt
  · rw [pop_eq_remove_last ⟨hlen, hcnt⟩ hne] at h
    exact inv_remove ⟨hlen, hcnt⟩ _ _ _ h

theorem inv_pop_uninit {s : OnceVec T} (hI : Inv s) :
    ∀ r s1, s.pop_uninit = some (r, s1) → Inv s1 := by
  obtain ⟨hlen, hcnt⟩ := hI
  intro r s1 h
  by_cases hne : s.vec = []
  · have hvl : s.vec.getLast? = none := by rw [hne]; rfl
    simp [pop_uninit, hvl] at h
  · rw [pop_uninit_eq_remove_uninit_last ⟨hlen, hcnt⟩ hne] at h
    cases hru : s.remove_uninit (s.vec.length - 1) with
    | none => rw [hru] at h; simp at h
    | some pr =>
      rw [hru] at h
      simp at h
      obtain ⟨-, rfl⟩ := h
      exact inv_remove_uninit ⟨hlen, hcnt⟩ _ pr.1 pr.2 hru

theorem inv_truncate {s : OnceVec T} (hI : Inv s) (k : Nat) :
    Inv (s.truncate k) := by
  obtain ⟨hlen, hcnt⟩ := hI
  by_cases h : s.vec.length ≤ k
  · simp only [truncate, if_pos h]
    exact ⟨hlen, hcnt⟩
  · simp only [truncate, if_neg h]
    exact ⟨by simp [hlen], rfl⟩

theorem inv_reserve {s : OnceVec T} (hI : Inv s) (a : Nat) :
    Inv (s.reserve a) := hI

theorem inv_reserve_exact {s : OnceVec T} (hI : Inv s) (a : Nat) :
    Inv (s.reserve_exact a) := hI

theorem inv_shrink_to_fit {s : OnceVec T} (hI : Inv s) :
    Inv s.shrink_to_fit := hI

theorem inv_shrink_to {s : OnceVec T} (hI : Inv s) (a : Nat) :
    Inv (s.shrink_to a) := hI

/-- C4: the invariants `len(storage) = len(gate)` and
`written_count = countSet(gate)` hold after every constructor and are
preserved by every public operation. -/
theorem inv_all_ops (T : Type) (s : OnceVec T) (hI : Inv s)
    (c n i k a : Nat) (v : T) (p : Option T) :
    Inv (new : OnceVec T) ∧ Inv (with_capacity (T := T) c) ∧
    Inv (with_uninit_len (T := T) n) ∧
    (∀ r s1, s.try_write i v = some (r, s1) → Inv s1) ∧
    (∀ s1, s.insert i v = some s1 → Inv s1) ∧
    (∀ s1, s.insert_uninit i p = some s1 → Inv s1) ∧
    (∀ r s1, s.remove i = some (r, s1) → Inv s1) ∧
    (∀ r s1, s.remove_uninit i = some (r, s1) → Inv s1) ∧
    Inv (s.push v) ∧ Inv (s.push_uninit p) ∧
    (∀ r s1, s.pop = some (r, s1) → Inv s1) ∧
    (∀ r s1, s.pop_uninit = some (r, s1) → Inv s1) ∧
    Inv (s.truncate k) ∧ Inv (s.reserve a) ∧ Inv (s.reserve_exact a) ∧
    Inv s.shrink_to_fit ∧ Inv (s.shrink_to a) :=
  ⟨inv_new, inv_with_capacity c, inv_with_uninit_len n,
   inv_try_write hI i v, inv_insert hI i v, inv_insert_uninit hI i p,
   inv_remove hI i, inv_remove_uninit hI i, inv_push hI v,
   inv_push_uninit hI p, inv_pop hI, inv_pop_uninit hI,
   inv_truncate hI k, inv_reserve hI a, inv_reserve_exact hI a,
   inv_shrink_to_fit hI, inv_shrink_to hI a⟩

/-- Witness for C4 at a concrete container and operation. -/
theorem inv_all_ops_witness :
    Inv (with_uninit_len (T := Nat) 2) ∧
    Inv ((with_uninit_len (T := Nat) 2).push 5) :=
  ⟨by decide,
    (inv_all_ops Nat (with_uninit_len 2) (by decide)
      0 0 0 0 0 5 none).2.2.2.2.2.2.2.2.1⟩

/-- C7: `push`/`push_uninit` behave as `insert`/`insert_uninit` at index
`len`, and on a non-empty container `pop`/`pop_uninit` behave as
`remove`/`remove_uninit` at index `len - 1`.  On an empty container `pop`
returns `None` without panicking, but `pop_uninit` panics on `val.unwrap()`
(modelled `none`): the code contradicts the claim there. -/
theorem push_pop_end_spec (T : Type) (s : OnceVec T) (v : T) (p : Option T)
    (hI : Inv s) :
    s.insert s.vec.length v = some (s.push v) ∧
    s.insert_uninit s.vec.length p = some (s.push_uninit p) ∧
    (s.vec ≠ [] → s.pop = s.remove (s.vec.length - 1) ∧
      s.pop_uninit = (s.remove_uninit (s.vec.length - 1)).map
        (fun pr => (some pr.1, pr.2))) ∧
    (s.vec = [] → s.pop = some (none, s) ∧ s.pop_uninit = none) := by
  refine ⟨insert_at_end hI v, insert_uninit_at_end hI p,
    fun hne => ⟨pop_eq_remove_last hI hne,
      pop_uninit_eq_remove_uninit_last hI hne⟩, ?_⟩
  intro hne
  obtain ⟨hlen, hcnt⟩ := hI
  have honce : s.once = [] := by
    rw [hne] at hlen
    exact List.length_eq_zero.mp hlen.symm
  constructor
  · have hgl : s.once.getLast? = none := by rw [honce]; rfl
    have h1 : s.vec.dropLast = s.vec := by rw [hne]; rfl
    have h2 : s.once.dropLast = s.once := by rw [honce]; rfl
    simp [pop, hgl, h1, h2]
  · have hvl : s.vec.getLast? = none := by rw [hne]; rfl
    simp [pop_uninit, hvl]

/-- Witness for C7: on the empty container `pop` returns `None` while
`pop_uninit` panics. -/
theorem push_pop_end_spec_witness :
    Inv (new : OnceVec Nat) ∧ (new : OnceVec Nat).vec = [] ∧
    (new : OnceVec Nat).pop = some (none, new) ∧
    (new : OnceVec Nat).pop_uninit = none := by
  have h := (push_pop_end_spec Nat new 0 none (by decide)).2.2.2 rfl
  exact ⟨by decide, rfl, h.1, h.2⟩

/-- C3: starting from `with_uninit_len n` and performing one successful
`try_write(i, v i)` for every index `i < n`, in any order, afterwards
`is_fully_written()` is true and `as_slice()` succeeds with the written
values in index order. -/
theorem write_all_spec (T : Type) (n : Nat) (v : Nat → T) (l : List Nat)
    (hperm : List.Perm l (List.range n)) :
    ∃ s1, write_seq v (with_uninit_len n) l = some s1 ∧
      s1.is_fully_written = true ∧
      s1.as_slice = Except.ok (some ((List.range n).map v)) ∧
      ∀ i, i < n → s1.vec[i]? = some (some (v i)) := by
  have hnd : l.Nodup := (List.Perm.nodup_iff hperm).mpr (List.nodup_range n)
  have hmem : ∀ j, j ∈ l ↔ j < n := by
    intro j
    rw [hperm.mem_iff, List.mem_range]
  have hlenl : l.length = n := by rw [hperm.length_eq, List.length_range]
  have hstart : ∀ j ∈ l,
      (with_uninit_len (T := T) n).once[j]? = some false := by
    intro j hj
    have hjn : j < n := (hmem j).mp hj
    simp [with_uninit_len, List.getElem?_replicate, hjn]
  obtain ⟨s1, hrun, hv1, ho1, hew1, hmemp, hnotp⟩ :=
    write_seq_go v l (with_uninit_len n) hnd hstart (by simp [with_uninit_len])
  have hvlen : s1.vec.length = n := by simpa [with_uninit_len] using hv1
  have holen : s1.once.length = n := by simpa [with_uninit_len] using ho1
  have hewn : s1.elements_written = n := by
    simpa [with_uninit_len, hlenl] using hew1
  have hfw : s1.is_fully_written = true := by
    simp [is_fully_written, hewn, holen]
  have hvec : s1.vec = (List.range n).map (fun i => some (v i)) := by
    apply List.ext_getElem?
    intro j
    by_cases hj : j < n
    · rw [(hmemp j ((hmem j).mpr hj)).2, List.getElem?_map,
        List.getElem?_range hj]
      rfl
    · rw [List.getElem?_eq_none (by omega : s1.vec.length ≤ j),
        List.getElem?_eq_none (by simp; omega)]
  have hread : readAll s1.vec = some ((List.range n).map v) := by
    rw [hvec, show (List.range n).map (fun i => some (v i)) =
      ((List.range n).map v).map some by rw [List.map_map]; rfl]
    exact readAll_map_some _
  refine ⟨s1, hrun, hfw, ?_, fun i hi => (hmemp i ((hmem i).mpr hi)).2⟩
  simp [as_slice, hfw, hread]

/-- Witness for C3: writing indices in the order 2, 0, 1 fills a length-3
container and `as_slice` returns the values in index order. -/
theorem write_all_spec_witness :
    List.Perm [2, 0, 1] (List.range 3) ∧
    ∃ s1, write_seq (fun i => 10 * i) (with_uninit_len 3) [2, 0, 1] =
        some s1 ∧ s1.as_slice = Except.ok (some [0, 10, 20]) := by
  refine ⟨by decide, ?_⟩
  obtain ⟨s1, hrun, -, hslice, -⟩ :=
    write_all_spec Nat 3 (fun i => 10 * i) [2, 0, 1] (by decide)
  exact ⟨s1, hrun, by rw [hslice]; rfl⟩

end OnceVec

end OnceVecModel
